import Mathlib

/-!
Shallow embedding of `colorout.go` (command colorout): a line-buffering,
colorizing writer (`colorizer`), a mutex-protected shared sink
(`safeWriter`), and the task-dispatch logic of `main`.

Bytes are modelled as natural numbers (no arithmetic is performed on them,
so no overflow is involved); Go byte slices become `List Byte`.  The
underlying sink of a colorizer is modelled by the stream of emissions it
receives; whether the t-th underlying write succeeds is given by an oracle
`sinkOk : Nat → Bool`, threaded through as an attempt counter, so that the
error path of the Go code is represented faithfully.
-/

namespace Colorout

/-- A byte of a Go byte slice. -/
abbrev Byte := Nat

/-- The byte value of the line terminator that `bytes.IndexByte(p, '\n')` searches for. -/
def newlineByte : Byte := 10

/-- ASCII byte sequence of a Go string literal. -/
def strBytes (s : String) : List Byte :=
  s.data.map Char.toNat

/-- Decimal rendering of a natural number, as produced by the %d verb of
`fmt.Sprintf` (`Nat.toDigits 10` yields the usual base-10 digit characters). -/
def decBytes (n : Nat) : List Byte :=
  (Nat.toDigits 10 n).map Char.toNat

/-- The fixed color palette: the attribute codes of the fourteen `color.New`
entries of the `colors` table in the source (seven high-intensity foregrounds,
then seven reverse-video standard foregrounds). -/
def colors : List (List Nat) :=
  [[91], [92], [93], [94], [95], [96], [97],
   [31, 7], [32, 7], [33, 7], [34, 7], [35, 7], [36, 7], [37, 7]]

/-- One line written to the underlying sink by `colorizer.write`, which executes
`c.Color.Fprintf(c.W, "%s%s%s\n", c.Prefix, prev, line)`: the sink receives the
task label `pfx`, then `text = prev ++ line`, then a newline, all wrapped in the
escape sequences of color number `colorIdx`.  Color rendering itself is outside
the modelled core, so an emission records the color index abstractly. -/
structure Emission where
  colorIdx : Nat
  pfx : List Byte
  text : List Byte
deriving Repr, DecidableEq

/-- The mutable state of a `colorizer`: its color index, its label (the Go
`Prefix` field, `fmt.Sprintf("%d> ", i)`), and the buffered `trailer`. -/
structure Colorizer where
  colorIdx : Nat
  pfx : List Byte
  trailer : List Byte
deriving Repr, DecidableEq

/-- The label `fmt.Sprintf("%d> ", i)` given to task i by `colorize`. -/
def taskPfx (i : Nat) : List Byte :=
  decBytes i ++ strBytes "> "

/-- `colorize(dst, i)`: a fresh colorizer for task i (the destination writer is
modelled at write time by the emission stream and the sink oracle). -/
def colorize (i : Nat) : Colorizer :=
  { colorIdx := i, pfx := taskPfx i, trailer := [] }

/-- `c.write(prev, line)` formats one output line; the emission it sends to the
underlying sink. -/
def Colorizer.writeLine (c : Colorizer) (prev line : List Byte) : Emission :=
  { colorIdx := c.colorIdx, pfx := c.pfx, text := prev ++ line }

/-- Result of a call to `colorizer.Write`: the updated colorizer, the emissions
successfully handed to the underlying sink during the call (in order), the
updated sink-attempt counter, the returned byte count n, and whether the
returned error was nil (`ok = true` means no error). -/
structure WriteRes where
  c : Colorizer
  outs : List Emission
  t : Nat
  n : Nat
  ok : Bool
deriving Repr, DecidableEq

/-- The loop body of `colorizer.Write`: repeatedly find the first newline
(`bytes.IndexByte` is `List.findIdx`, with "not found" represented by the
index reaching `p.length`); with no newline left, `c.trailer =
append(c.trailer[:0], p...)` replaces the trailer by `p`; otherwise emit
`c.write(c.trailer, p[:pos])` (failing when the sink oracle fails attempt t,
in which case the call returns the error with the state as it stands), then
continue on `p[pos+1:]` with `c.trailer = nil`. -/
def Colorizer.writeLoop (sinkOk : Nat → Bool) (c : Colorizer) (t : Nat)
    (p : List Byte) : WriteRes :=
  let pos := p.findIdx (· == newlineByte)
  if h : pos < p.length then
    let line := p.take pos
    let e := c.writeLine c.trailer line
    if sinkOk t then
      let rest := Colorizer.writeLoop sinkOk { c with trailer := [] } (t + 1)
        (p.drop (pos + 1))
      { rest with outs := e :: rest.outs }
    else
      { c := c, outs := [], t := t + 1, n := 0, ok := false }
  else
    { c := { c with trailer := p }, outs := [], t := t, n := 0, ok := true }
termination_by p.length
decreasing_by simp [List.length_drop]; omega

/-- `colorizer.Write(p)`: sets `n = len(p)` up front (so n is returned as the
full chunk length on every path) and runs the scan loop. -/
def Colorizer.Write (sinkOk : Nat → Bool) (c : Colorizer) (t : Nat)
    (p : List Byte) : WriteRes :=
  { c.writeLoop sinkOk t p with n := p.length }

/-- Result of `colorizer.Close`: updated colorizer, emissions, attempt counter,
and whether the returned error was nil. -/
structure CloseRes where
  c : Colorizer
  outs : List Emission
  t : Nat
  ok : Bool
deriving Repr, DecidableEq

/-- `colorizer.Close()`: when the trailer is non-empty, emit
`c.write(c.trailer, nil)` and return its error; the trailer field itself is
not modified by the source. -/
def Colorizer.Close (sinkOk : Nat → Bool) (c : Colorizer) (t : Nat) : CloseRes :=
  if c.trailer.length > 0 then
    if sinkOk t then
      { c := c, outs := [c.writeLine c.trailer []], t := t + 1, ok := true }
    else
      { c := c, outs := [], t := t + 1, ok := false }
  else
    { c := c, outs := [], t := t, ok := true }

/-- A sink oracle under which every underlying write succeeds. -/
def alwaysOk : Nat → Bool := fun _ => true

/-- Feed a list of chunks through successive `Write` calls on a never-failing
sink, collecting all emissions in order. -/
def feed (c : Colorizer) : List (List Byte) → Colorizer × List Emission
  | [] => (c, [])
  | p :: rest =>
    let r := Colorizer.Write alwaysOk c 0 p
    let pr := feed r.c rest
    (pr.1, r.outs ++ pr.2)

/-- Closing the same colorizer twice in sequence, the scenario the close
idempotence contract is about. -/
def closeTwice (c : Colorizer) (t : Nat) : CloseRes × CloseRes :=
  let r1 := Colorizer.Close alwaysOk c t
  (r1, Colorizer.Close alwaysOk r1.c r1.t)

/-- The bytes of an emission once the color escape sequences are stripped:
the label, the line text, and the terminating newline. -/
def Emission.visible (e : Emission) : List Byte :=
  e.pfx ++ e.text ++ [newlineByte]

/-- A task as dispatched by the loop of `main`: its index, its command string,
and the two colorizers `colorize(stdout, i)` and `colorize(stderr, i)` wired to
its output streams. -/
structure DispatchedTask where
  idx : Nat
  command : List Byte
  colorOut : Colorizer
  colorErr : Colorizer
deriving Repr, DecidableEq

/-- The dispatch logic of `main`: when `len(tasks) > len(colors)` the run stops
with `log.Fatal("Too many tasks!")` before any colorizer is built or any
goroutine started (modelled as `none`: no task runs, no task output exists);
otherwise every task `i` is dispatched with its pair of colorizers. -/
def mainDispatch (tasks : List (List Byte)) : Option (List DispatchedTask) :=
  if tasks.length > colors.length then none
  else some (tasks.enum.map fun q =>
    { idx := q.1, command := q.2, colorOut := colorize q.1, colorErr := colorize q.1 })

/-- An item arriving at the shared stderr `safeWriter` of `main`: either an
emission produced by a colorizer (the line-buffering path), or bytes handed to
the `safeWriter` directly by `fmt.Fprintf(stderr, ...)` (uncolored). -/
inductive OutItem where
  | colored (e : Emission)
  | raw (bs : List Byte)
deriving Repr, DecidableEq

/-- Line 59 of the source: `fmt.Fprintf(colorErr, "%d> Running: %s\n", i, command)`
renders the announcement text and hands it to task i's freshly built stderr
colorizer, i.e. it goes through the line-buffering path.  Result: the items the
shared sink receives, and the colorizer state afterwards. -/
def announce (i : Nat) (command : List Byte) : List OutItem × Colorizer :=
  let r := Colorizer.Write alwaysOk (colorize i) 0
    (decBytes i ++ strBytes "> Running: " ++ command ++ [newlineByte])
  (r.outs.map OutItem.colored, r.c)

/-- Line 63 of the source: `fmt.Fprintf(stderr, "%d> command failed with %v\n", i, err)`
writes the failure diagnostic directly to the shared stderr `safeWriter`,
bypassing every colorizer. -/
def failDiag (i : Nat) (errMsg : List Byte) : OutItem :=
  .raw (decBytes i ++ strBytes "> command failed with " ++ errMsg ++ [newlineByte])

/-- The bytes an item contributes to the shared destination, color escapes
stripped. -/
def OutItem.bytes : OutItem → List Byte
  | .colored e => e.visible
  | .raw bs => bs

/-- Phase of one producer in the `safeWriter` protocol: not yet called `Write`,
inside `Write` (holding the mutex), or returned from `Write`. -/
inductive Phase where
  | idle
  | writing
  | finished
deriving DecidableEq, Repr

/-- Global state of N concurrent producers sharing one `safeWriter`: the holder
of `s.mu`, each producer's phase, how many bytes of its message the current or
past holder has transferred, the byte content of the shared destination `s.W`,
and the order in which producers completed their calls. -/
structure MuState (N : Nat) where
  holder : Option (Fin N)
  phase : Fin N → Phase
  emitted : Fin N → Nat
  out : List Byte
  order : List (Fin N)

/-- Initial state: mutex free, every producer idle, destination empty. -/
def MuState.init (N : Nat) : MuState N :=
  { holder := none, phase := fun _ => .idle, emitted := fun _ => 0,
    out := [], order := [] }

/-- Interleaving semantics of `safeWriter.Write` for N concurrent producers,
producer i calling `Write(msgs i)`:
`lock` is `s.mu.Lock()` (enabled only while no producer holds the mutex);
`emit` transfers the next single byte of the holder's message to the
destination during `s.W.Write(data)` (a byte is the unit at which torn writes
would be observable); `unlock` is `s.mu.Unlock()` once the underlying write is
complete, after which `Write` returns the underlying result. -/
inductive MuStep {N : Nat} (msgs : Fin N → List Byte) :
    MuState N → MuState N → Prop where
  | lock (i : Fin N) (s : MuState N) (h1 : s.holder = none)
      (h2 : s.phase i = Phase.idle) :
      MuStep msgs s { s with
        holder := some i
        phase := Function.update s.phase i Phase.writing
        emitted := Function.update s.emitted i 0 }
  | emit (i : Fin N) (s : MuState N) (h1 : s.holder = some i)
      (h2 : s.emitted i < (msgs i).length) :
      MuStep msgs s { s with
        out := s.out ++ [(msgs i).get ⟨s.emitted i, h2⟩]
        emitted := Function.update s.emitted i (s.emitted i + 1) }
  | unlock (i : Fin N) (s : MuState N) (h1 : s.holder = some i)
      (h2 : s.emitted i = (msgs i).length) :
      MuStep msgs s { s with
        holder := none
        phase := Function.update s.phase i Phase.finished
        order := s.order ++ [i] }

/-- Reachability in the safeWriter protocol. -/
def MuReach {N : Nat} (msgs : Fin N → List Byte) : MuState N → MuState N → Prop :=
  Relation.ReflTransGen (MuStep msgs)

/-- Protocol invariant: the destination holds the full messages of completed
producers, in completion order, followed by the partial message of the mutex
holder (if any); a producer is finished exactly when recorded in the completion
order, which lists no producer twice; the producer inside `Write` is exactly
the mutex holder, which never over-runs its message. -/
def MuInv {N : Nat} (msgs : Fin N → List Byte) (s : MuState N) : Prop :=
  s.out = (s.order.map msgs).flatten ++
      (match s.holder with
       | some i => (msgs i).take (s.emitted i)
       | none => []) ∧
    (∀ i, s.phase i = Phase.finished ↔ i ∈ s.order) ∧
    s.order.Nodup ∧
    (∀ i, s.holder = some i → s.phase i = Phase.writing ∧ s.emitted i ≤ (msgs i).length) ∧
    (∀ i, s.phase i = Phase.writing → s.holder = some i)

/-! Helper lemmas about the scan loop of `colorizer.Write` and about the
decimal digits of a task label. -/

theorem findIdx_nl_of_not_mem {l : List Byte} (h : newlineByte ∉ l) :
    l.findIdx (· == newlineByte) = l.length := by
  refine List.findIdx_eq_length_of_false fun x hx => ?_
  simp only [beq_eq_false_iff_ne]
  rintro rfl
  exact h hx

theorem findIdx_nl_append {l : List Byte} (r : List Byte) (h : newlineByte ∉ l) :
    (l ++ newlineByte :: r).findIdx (· == newlineByte) = l.length := by
  rw [List.findIdx_append, findIdx_nl_of_not_mem h]
  simp [List.findIdx_cons]

/-- A chunk without a newline is buffered whole, replacing the trailer. -/
theorem writeLoop_no_nl (sinkOk : Nat → Bool) (c : Colorizer) (t : Nat)
    {p : List Byte} (h : newlineByte ∉ p) :
    Colorizer.writeLoop sinkOk c t p =
      { c := { c with trailer := p }, outs := [], t := t, n := 0, ok := true } := by
  rw [Colorizer.writeLoop]
  simp [findIdx_nl_of_not_mem h]

/-- Peeling one complete line off the front of the scanned chunk. -/
theorem writeLoop_line (sinkOk : Nat → Bool) (c : Colorizer) (t : Nat)
    {l : List Byte} (r : List Byte) (h : newlineByte ∉ l) (hok : sinkOk t = true) :
    Colorizer.writeLoop sinkOk c t (l ++ newlineByte :: r) =
      { Colorizer.writeLoop sinkOk { c with trailer := [] } (t + 1) r with
        outs := c.writeLine c.trailer l ::
          (Colorizer.writeLoop sinkOk { c with trailer := [] } (t + 1) r).outs } := by
  rw [Colorizer.writeLoop]
  have hidx := findIdx_nl_append r h
  have hlt : l.length < (l ++ newlineByte :: r).length := by
    simp [List.length_append]
  have htake : (l ++ newlineByte :: r).take l.length = l := List.take_left' rfl
  have hdrop : (l ++ newlineByte :: r).drop (l.length + 1) = r := by
    have hsplit : l ++ newlineByte :: r = (l ++ [newlineByte]) ++ r := by simp
    rw [hsplit]
    exact List.drop_left' (by simp)
  simp only [hidx, hlt, dite_true, htake, hdrop, hok, if_true]

/-- Scanning k newline-terminated lines from an empty trailer emits exactly the
k lines, labeled with the colorizer's own color and label, and ends with an
empty trailer. -/
theorem writeLoop_lines (ls : List (List Byte)) (c : Colorizer) (t : Nat)
    (hc : c.trailer = []) (h : ∀ l ∈ ls, newlineByte ∉ l) :
    Colorizer.writeLoop alwaysOk c t ((ls.map (· ++ [newlineByte])).flatten) =
      { c := { c with trailer := [] },
        outs := ls.map fun l => { colorIdx := c.colorIdx, pfx := c.pfx, text := l },
        t := t + ls.length, n := 0, ok := true } := by
  induction ls generalizing c t with
  | nil =>
    simp only [List.map_nil, List.flatten_nil, List.length_nil, Nat.add_zero]
    exact writeLoop_no_nl alwaysOk c t (by simp)
  | cons l rest ih =>
    have hl : newlineByte ∉ l := h l (by simp)
    have hrest : ∀ x ∈ rest, newlineByte ∉ x := fun x hx => h x (by simp [hx])
    have hflat : (((l :: rest).map (· ++ [newlineByte])).flatten : List Byte) =
        l ++ newlineByte :: ((rest.map (· ++ [newlineByte])).flatten) := by
      simp
    rw [hflat, writeLoop_line alwaysOk c t _ hl rfl, ih _ _ rfl hrest]
    have hcc : ({ c with trailer := [] } : Colorizer) = c := by
      cases c
      simp_all
    rw [hcc]
    simp [Colorizer.writeLine, hc, Nat.add_comm, Nat.add_assoc, Nat.add_left_comm]

theorem digitChar_toNat_ne_nl {m : Nat} (h : m < 10) : (Nat.digitChar m).toNat ≠ 10 := by
  revert h
  revert m
  decide

theorem toDigitsCore_ne_nl (fuel : Nat) :
    ∀ (n : Nat) (ds : List Char), (∀ ch ∈ ds, ch.toNat ≠ 10) →
      ∀ ch ∈ Nat.toDigitsCore 10 fuel n ds, ch.toNat ≠ 10 := by
  induction fuel with
  | zero => intro n ds hds; exact hds
  | succ fuel ih =>
    intro n ds hds ch hch
    rw [Nat.toDigitsCore] at hch
    by_cases hz : n / 10 = 0
    · rw [if_pos hz] at hch
      rcases List.mem_cons.mp hch with rfl | hm
      · exact digitChar_toNat_ne_nl (Nat.mod_lt _ (by decide))
      · exact hds _ hm
    · rw [if_neg hz] at hch
      refine ih _ _ ?_ ch hch
      intro ch2 hch2
      rcases List.mem_cons.mp hch2 with rfl | hm
      · exact digitChar_toNat_ne_nl (Nat.mod_lt _ (by decide))
      · exact hds _ hm

/-- A decimal task index never contains a newline byte. -/
theorem nl_not_mem_decBytes (n : Nat) : newlineByte ∉ decBytes n := by
  intro hmem
  simp only [decBytes, Nat.toDigits, List.mem_map] at hmem
  obtain ⟨ch, hch, hval⟩ := hmem
  exact toDigitsCore_ne_nl _ _ _ (by simp) ch hch hval

/-- A task label never contains a newline byte. -/
theorem nl_not_mem_taskPfx (n : Nat) : newlineByte ∉ taskPfx n := by
  intro hmem
  rcases List.mem_append.mp hmem with hm | hm
  · exact nl_not_mem_decBytes n hm
  · exact absurd hm (by decide)

/-! The claims. -/

/-- Projections of `colorizer.Write` in terms of the scan loop. -/
theorem Write_outs (sinkOk : Nat → Bool) (c : Colorizer) (t : Nat) (p : List Byte) :
    (Colorizer.Write sinkOk c t p).outs = (Colorizer.writeLoop sinkOk c t p).outs := rfl

theorem Write_c (sinkOk : Nat → Bool) (c : Colorizer) (t : Nat) (p : List Byte) :
    (Colorizer.Write sinkOk c t p).c = (Colorizer.writeLoop sinkOk c t p).c := rfl

theorem Write_t (sinkOk : Nat → Bool) (c : Colorizer) (t : Nat) (p : List Byte) :
    (Colorizer.Write sinkOk c t p).t = (Colorizer.writeLoop sinkOk c t p).t := rfl

/-- C10: colorizer.Write returns n equal to the full length of the chunk p on
every path — also when an underlying sink write fails partway through the
chunk (the claim holds for every sink oracle); only the error value signals
failure. -/
theorem write_returns_full_length (sinkOk : Nat → Bool) (c : Colorizer) (t : Nat)
    (p : List Byte) : (Colorizer.Write sinkOk c t p).n = p.length := rfl

/-- C1: refuted on the code (code bug).  Feeding the chunks "a", "b", "\n"
emits a single line whose text is "b", while feeding "ab\n" as one chunk emits
"ab": on a chunk without a newline, `c.trailer = append(c.trailer[:0], p...)`
replaces the pending carry instead of appending to it, so chunking is not
transparent and the trailing bytes of carry+chunk do not become the new carry. -/
theorem write_chunking_not_transparent :
    ((feed (colorize 0) [[97], [98], [10]]).2.map Emission.text = [[98]]) ∧
    ((feed (colorize 0) [[97, 98, 10]]).2.map Emission.text = [[97, 98]]) ∧
    ([[98]] : List (List Byte)) ≠ [[97, 98]] := by
  refine ⟨?_, ?_, by decide⟩ <;>
    simp [feed, Colorizer.Write, Colorizer.writeLoop, colorize, taskPfx, alwaysOk,
      Colorizer.writeLine, newlineByte, List.findIdx_cons]

/-- C2: refuted on the code (code bug).  With "a" buffered, a Write of the
empty chunk emits nothing but resets the carry to empty — the buffered byte is
lost instead of being left unchanged, so the empty write is not a no-op. -/
theorem write_empty_chunk_clears_carry :
    ((Colorizer.Write alwaysOk (colorize 0) 0 [97]).c.trailer = [97]) ∧
    ((Colorizer.Write alwaysOk (Colorizer.Write alwaysOk (colorize 0) 0 [97]).c 0 []).outs = []) ∧
    ((Colorizer.Write alwaysOk (Colorizer.Write alwaysOk (colorize 0) 0 [97]).c 0 []).c.trailer = []) ∧
    (([] : List Byte) ≠ [97]) := by
  refine ⟨?_, ?_, ?_, by decide⟩ <;>
    simp [Colorizer.Write, Colorizer.writeLoop, colorize, taskPfx, alwaysOk,
      Colorizer.writeLine, newlineByte, List.findIdx_cons]

/-- C3 counterexample: after writing "a" with no trailing newline, a first
Close emits the line "a" and a second Close emits "a" again — the second close
does re-emit, refuting idempotence. -/
theorem close_twice_reemits :
    ((closeTwice (Colorizer.Write alwaysOk (colorize 0) 0 [97]).c 0).1.outs.map Emission.text = [[97]]) ∧
    ((closeTwice (Colorizer.Write alwaysOk (colorize 0) 0 [97]).c 0).2.outs.map Emission.text = [[97]]) ∧
    ((closeTwice (Colorizer.Write alwaysOk (colorize 0) 0 [97]).c 0).2.outs ≠ []) := by
  refine ⟨?_, ?_, ?_⟩ <;>
    simp [closeTwice, Colorizer.Close, Colorizer.Write, Colorizer.writeLoop, colorize,
      taskPfx, alwaysOk, Colorizer.writeLine, newlineByte, List.findIdx_cons]

/-- C3 amended: the first close of a colorizer with non-empty carry emits the
unterminated remainder exactly once, but because Close never clears the
trailer, a second close emits the very same line again. -/
theorem close_emits_remainder_not_idempotent (c : Colorizer) (h : c.trailer ≠ []) :
    ((closeTwice c 0).1.outs = [c.writeLine c.trailer []]) ∧
    ((closeTwice c 0).2.outs = [c.writeLine c.trailer []]) := by
  have hlen : 0 < c.trailer.length := List.length_pos.mpr h
  constructor <;> simp [closeTwice, Colorizer.Close, hlen, alwaysOk]

/-- Witness for the amended C3 at a colorizer buffering the single byte "a". -/
theorem close_emits_remainder_not_idempotent_witness :
    (({ colorIdx := 0, pfx := taskPfx 0, trailer := [97] } : Colorizer).trailer ≠ []) ∧
    ((closeTwice { colorIdx := 0, pfx := taskPfx 0, trailer := [97] } 0).1.outs =
      [Colorizer.writeLine { colorIdx := 0, pfx := taskPfx 0, trailer := [97] } [97] []]) ∧
    ((closeTwice { colorIdx := 0, pfx := taskPfx 0, trailer := [97] } 0).2.outs =
      [Colorizer.writeLine { colorIdx := 0, pfx := taskPfx 0, trailer := [97] } [97] []]) :=
  ⟨by decide, (close_emits_remainder_not_idempotent _ (by decide)).1,
    (close_emits_remainder_not_idempotent _ (by decide)).2⟩

/-- C4 counterexample: closing after the unterminated write "a" emits the line
but leaves the trailer equal to "a": Close does not clear the buffer state. -/
theorem close_leaves_buffer_state :
    ((Colorizer.Close alwaysOk (Colorizer.Write alwaysOk (colorize 0) 0 [97]).c 0).outs.map
        Emission.text = [[97]]) ∧
    ((Colorizer.Close alwaysOk (Colorizer.Write alwaysOk (colorize 0) 0 [97]).c 0).c.trailer = [97]) ∧
    (([97] : List Byte) ≠ []) := by
  refine ⟨?_, ?_, by decide⟩ <;>
    simp [Colorizer.Close, Colorizer.Write, Colorizer.writeLoop, colorize, taskPfx,
      alwaysOk, Colorizer.writeLine, newlineByte, List.findIdx_cons]

/-- C5: for every input to a task's colorizer consisting of exactly k
newline-terminated lines, the colorizer emits exactly k output lines, each
carrying task i's own "{index}> " label and color index, and no other task's
label (labels of distinct palette indices are distinct). -/
theorem write_k_lines_labeled (i : Nat) (hi : i < colors.length) (ls : List (List Byte))
    (h : ∀ l ∈ ls, newlineByte ∉ l) :
    ((Colorizer.Write alwaysOk (colorize i) 0 ((ls.map (· ++ [newlineByte])).flatten)).outs.length
        = ls.length) ∧
    (∀ e ∈ (Colorizer.Write alwaysOk (colorize i) 0 ((ls.map (· ++ [newlineByte])).flatten)).outs,
      e.pfx = taskPfx i ∧ e.colorIdx = i ∧
        ∀ j, j < colors.length → j ≠ i → e.pfx ≠ taskPfx j) := by
  have hinj : ∀ a, a < colors.length → ∀ b, b < colors.length → a ≠ b → taskPfx a ≠ taskPfx b := by
    decide
  have houts : (Colorizer.Write alwaysOk (colorize i) 0
      ((ls.map (· ++ [newlineByte])).flatten)).outs
      = ls.map fun l => { colorIdx := i, pfx := taskPfx i, text := l } := by
    rw [Write_outs, writeLoop_lines ls (colorize i) 0 rfl h]
    simp [colorize]
  constructor
  · rw [houts, List.length_map]
  · intro e he
    rw [houts] at he
    obtain ⟨l, _, rfl⟩ := List.mem_map.mp he
    exact ⟨rfl, rfl, fun j hj hne => hinj i hi j hj (Ne.symm hne)⟩

/-- Witness for C5 at task 0 with the two lines "a" and "b". -/
theorem write_k_lines_labeled_witness :
    ((0 < colors.length) ∧ (∀ l ∈ [[97], [98]], newlineByte ∉ l)) ∧
    (((Colorizer.Write alwaysOk (colorize 0) 0
        (([[97], [98]].map (· ++ [newlineByte])).flatten)).outs.length = 2) ∧
    (∀ e ∈ (Colorizer.Write alwaysOk (colorize 0) 0
        (([[97], [98]].map (· ++ [newlineByte])).flatten)).outs,
      e.pfx = taskPfx 0 ∧ e.colorIdx = 0 ∧
        ∀ j, j < colors.length → j ≠ 0 → e.pfx ≠ taskPfx j)) :=
  ⟨⟨by decide, by decide⟩, write_k_lines_labeled 0 (by decide) [[97], [98]] (by decide)⟩

/-- C6 counterexample: the CRLF-terminated chunk "a\r\n" yields the line text
"a\r", not "a": the carriage return immediately preceding the newline is kept
(the code never strips CR), refuting the claim as stated. -/
theorem write_crlf_text_keeps_cr :
    ((Colorizer.Write alwaysOk (colorize 0) 0 [97, 13, 10]).outs.map Emission.text = [[97, 13]]) ∧
    (([97, 13] : List Byte) ≠ [97]) := by
  refine ⟨?_, by decide⟩
  simp [Colorizer.Write, Colorizer.writeLoop, colorize, taskPfx, alwaysOk,
    Colorizer.writeLine, newlineByte, List.findIdx_cons]

/-- C6 amended: for every newline found in carry+chunk the emitted line text
excludes the newline terminator itself, but a carriage return immediately
preceding the newline is retained in the text. -/
theorem write_text_excludes_terminator_keeps_cr (i : Nat) (ls : List (List Byte))
    (h : ∀ l ∈ ls, newlineByte ∉ l) :
    ((Colorizer.Write alwaysOk (colorize i) 0
        ((ls.map (· ++ [13, newlineByte])).flatten)).outs.map Emission.text
      = ls.map (· ++ [13])) ∧
    (∀ e ∈ (Colorizer.Write alwaysOk (colorize i) 0
        ((ls.map (· ++ [13, newlineByte])).flatten)).outs, newlineByte ∉ e.text) := by
  have hflat : (ls.map (· ++ [13, newlineByte])) = (ls.map (· ++ [13])).map (· ++ [newlineByte]) := by
    rw [List.map_map]
    apply List.map_congr_left
    intro l _
    simp
  have h13 : ∀ l ∈ ls.map (· ++ [13]), newlineByte ∉ l := by
    intro l hl
    obtain ⟨x, hx, rfl⟩ := List.mem_map.mp hl
    intro hmem
    rcases List.mem_append.mp hmem with hm | hm
    · exact h x hx hm
    · simp [newlineByte] at hm
  have houts : (Colorizer.Write alwaysOk (colorize i) 0
      ((ls.map (· ++ [13, newlineByte])).flatten)).outs
      = (ls.map (· ++ [13])).map fun l => { colorIdx := i, pfx := taskPfx i, text := l } := by
    rw [Write_outs, hflat, writeLoop_lines _ (colorize i) 0 rfl h13]
    simp [colorize]
  constructor
  · rw [houts, List.map_map]
    simp [Function.comp]
  · intro e he
    rw [houts] at he
    obtain ⟨l, hl, rfl⟩ := List.mem_map.mp he
    exact h13 l hl

/-- Witness for the amended C6 at task 0 with the single CRLF line "a". -/
theorem write_text_excludes_terminator_keeps_cr_witness :
    (∀ l ∈ [[97]], newlineByte ∉ l) ∧
    (((Colorizer.Write alwaysOk (colorize 0) 0
        (([[97]].map (· ++ [13, newlineByte])).flatten)).outs.map Emission.text
      = [[97]].map (· ++ [13])) ∧
    (∀ e ∈ (Colorizer.Write alwaysOk (colorize 0) 0
        (([[97]].map (· ++ [13, newlineByte])).flatten)).outs, newlineByte ∉ e.text)) :=
  ⟨by decide, write_text_excludes_terminator_keeps_cr 0 [[97]] (by decide)⟩

/-- Evaluating the announcement write: the rendered text goes through the
colorizer, which prepends its own label to the already-labeled content. -/
theorem announce_eval (i : Nat) {cmd : List Byte} (hcmd : newlineByte ∉ cmd) :
    announce i cmd = ([OutItem.colored { colorIdx := i, pfx := taskPfx i, text := decBytes i ++ strBytes "> Running: " ++ cmd }],
      { colorIdx := i, pfx := taskPfx i, trailer := [] }) := by
  have hl : newlineByte ∉ decBytes i ++ strBytes "> Running: " ++ cmd := by
    intro hmem
    rcases List.mem_append.mp hmem with hm | hm
    · rcases List.mem_append.mp hm with hm2 | hm2
      · exact nl_not_mem_decBytes i hm2
      · exact absurd hm2 (by decide)
    · exact hcmd hm
  have hin : decBytes i ++ strBytes "> Running: " ++ cmd ++ [newlineByte]
      = (decBytes i ++ strBytes "> Running: " ++ cmd) ++ newlineByte :: [] := by
    simp
  unfold announce
  rw [Colorizer.Write, hin, writeLoop_line _ _ _ _ hl rfl, writeLoop_no_nl _ _ _ (by simp)]
  simp [colorize, Colorizer.writeLine]

/-- C9 counterexample: the announcement for task 0 running "x" goes through
the task's stderr colorizer, which prepends its own label to the already
rendered "0> Running: x"; the sink therefore receives the doubled-label line
"0> 0> Running: x", not the single-label line the claim describes, and via the
buffering path rather than directly. -/
theorem announce_doubles_label :
    ((announce 0 (strBytes "x")).1.map OutItem.bytes
        = [strBytes "0> 0> Running: x" ++ [newlineByte]]) ∧
    (strBytes "0> 0> Running: x" ++ [newlineByte] ≠ strBytes "0> Running: x" ++ [newlineByte]) := by
  refine ⟨?_, by decide⟩
  rw [announce_eval 0 (by decide)]
  decide

/-- C9 amended: the "Running:" announcement is handed to the task's stderr
colorizer, i.e. it travels the line-buffering path and emerges as one colored
emission whose visible text carries the "{i}> " label twice (once written by
fmt.Fprintf, once prepended by the colorizer), leaving the colorizer's trailer
empty; the failure diagnostic is written directly to the shared stderr sink,
uncolored, with a single textual "{i}> " label. -/
theorem announce_buffered_diag_direct (i : Nat) (cmd errMsg : List Byte)
    (hcmd : newlineByte ∉ cmd) :
    ((announce i cmd).1 = [OutItem.colored { colorIdx := i, pfx := taskPfx i, text := taskPfx i ++ strBytes "Running: " ++ cmd }]) ∧
    ((announce i cmd).2.trailer = []) ∧
    (failDiag i errMsg
      = OutItem.raw (taskPfx i ++ strBytes "command failed with " ++ errMsg ++ [newlineByte])) := by
  have hsplit : strBytes "> Running: " = strBytes "> " ++ strBytes "Running: " := by decide
  have hsplit2 : strBytes "> command failed with "
      = strBytes "> " ++ strBytes "command failed with " := by decide
  refine ⟨?_, ?_, ?_⟩
  · rw [announce_eval i hcmd]
    simp [taskPfx, hsplit, List.append_assoc]
  · rw [announce_eval i hcmd]
  · simp [failDiag, taskPfx, hsplit2, List.append_assoc]

/-- Witness for the amended C9 at task 0, command "x", error "exit status 1". -/
theorem announce_buffered_diag_direct_witness :
    (newlineByte ∉ strBytes "x") ∧
    (((announce 0 (strBytes "x")).1 = [OutItem.colored { colorIdx := 0, pfx := taskPfx 0, text := taskPfx 0 ++ strBytes "Running: " ++ strBytes "x" }]) ∧
    ((announce 0 (strBytes "x")).2.trailer = []) ∧
    (failDiag 0 (strBytes "exit status 1")
      = OutItem.raw (taskPfx 0 ++ strBytes "command failed with " ++ strBytes "exit status 1"
          ++ [newlineByte]))) :=
  ⟨by decide, announce_buffered_diag_direct 0 (strBytes "x") (strBytes "exit status 1") (by decide)⟩

/-- C7: when the number of supplied commands exceeds the size of the fixed
color palette, main aborts before any task is dispatched and no task output is
produced; when the count is within the palette size, every task is dispatched,
in input order, with its index and its pair of colorizers. -/
theorem dispatch_checks_palette (tasks : List (List Byte)) :
    (colors.length < tasks.length → mainDispatch tasks = none) ∧
    (tasks.length ≤ colors.length →
      ∃ l, mainDispatch tasks = some l ∧ l.length = tasks.length ∧
        ∀ k, l[k]? = (tasks[k]?).map fun cmd =>
          ({ idx := k, command := cmd, colorOut := colorize k, colorErr := colorize k } : DispatchedTask)) := by
  constructor
  · intro hgt
    simp [mainDispatch, hgt]
  · intro hle
    refine ⟨tasks.enum.map fun q => { idx := q.1, command := q.2, colorOut := colorize q.1, colorErr := colorize q.1 }, ?_, ?_, ?_⟩
    · simp [mainDispatch, Nat.not_lt.mpr hle]
    · simp
    · intro k
      rw [List.getElem?_map, List.getElem?_enum, Option.map_map]
      rfl

/-- Witness for C7: fifteen commands abort the run; a single command is
dispatched as task 0. -/
theorem dispatch_checks_palette_witness :
    ((colors.length < (List.replicate 15 ([] : List Byte)).length) ∧
      (mainDispatch (List.replicate 15 []) = none)) ∧
    (mainDispatch [[99]] = some [{ idx := 0, command := [99], colorOut := colorize 0, colorErr := colorize 0 }]) := by
  refine ⟨⟨by decide, (dispatch_checks_palette _).1 (by decide)⟩, ?_⟩
  obtain ⟨l, hl, hlen, hget⟩ := (dispatch_checks_palette [[99]]).2 (by decide)
  rw [hl]
  congr 1
  have h0 := hget 0
  cases l with
  | nil => simp at hlen
  | cons a l2 =>
    cases l2 with
    | nil =>
      simp at h0
      simp [h0]
    | cons b l3 => simp at hlen

/-- C4 amended: closing a colorizer whose carry is non-empty emits the carry
as one final colored, labeled line and succeeds — a task's last line is never
dropped merely because it lacks a trailing newline — but Close leaves the
buffer state in place rather than clearing it; when the carry is empty, Close
emits nothing and succeeds. -/
theorem close_flushes_unterminated_line (i : Nat) (l1 l2 : List Byte)
    (h1 : newlineByte ∉ l1) (h2 : newlineByte ∉ l2) (h3 : l2 ≠ []) :
    ((Colorizer.Write alwaysOk (colorize i) 0 (l1 ++ newlineByte :: l2)).outs.map Emission.text
        = [l1]) ∧
    ((Colorizer.Close alwaysOk (Colorizer.Write alwaysOk (colorize i) 0 (l1 ++ newlineByte :: l2)).c
        (Colorizer.Write alwaysOk (colorize i) 0 (l1 ++ newlineByte :: l2)).t).outs.map Emission.text
        = [l2]) ∧
    ((Colorizer.Close alwaysOk (Colorizer.Write alwaysOk (colorize i) 0 (l1 ++ newlineByte :: l2)).c
        (Colorizer.Write alwaysOk (colorize i) 0 (l1 ++ newlineByte :: l2)).t).ok = true) ∧
    (∀ (c : Colorizer) (sinkOk : Nat → Bool) (t : Nat), c.trailer = [] →
      (Colorizer.Close sinkOk c t).outs = [] ∧ (Colorizer.Close sinkOk c t).ok = true) := by
  have hW : Colorizer.writeLoop alwaysOk (colorize i) 0 (l1 ++ newlineByte :: l2) =
      { c := { colorIdx := i, pfx := taskPfx i, trailer := l2 },
        outs := [{ colorIdx := i, pfx := taskPfx i, text := l1 }],
        t := 1, n := 0, ok := true } := by
    rw [writeLoop_line _ _ _ _ h1 rfl, writeLoop_no_nl _ _ _ h2]
    simp [colorize, Colorizer.writeLine]
  have hlen : 0 < l2.length := List.length_pos.mpr h3
  refine ⟨?_, ?_, ?_, ?_⟩
  · rw [Write_outs, hW]
    simp
  · rw [Write_c, Write_t, hW]
    simp [Colorizer.Close, hlen, alwaysOk, Colorizer.writeLine]
  · rw [Write_c, Write_t, hW]
    simp [Colorizer.Close, hlen, alwaysOk]
  · intro c sinkOk t hc
    simp [Colorizer.Close, hc]

/-- Witness for the amended C4 at task 0 with input "a\nb" (scenario C). -/
theorem close_flushes_unterminated_line_witness :
    ((newlineByte ∉ [97]) ∧ (newlineByte ∉ [98]) ∧ ([98] : List Byte) ≠ []) ∧
    (((Colorizer.Write alwaysOk (colorize 0) 0 ([97] ++ newlineByte :: [98])).outs.map Emission.text
        = [[97]]) ∧
    ((Colorizer.Close alwaysOk (Colorizer.Write alwaysOk (colorize 0) 0 ([97] ++ newlineByte :: [98])).c
        (Colorizer.Write alwaysOk (colorize 0) 0 ([97] ++ newlineByte :: [98])).t).outs.map Emission.text
        = [[98]]) ∧
    ((Colorizer.Close alwaysOk (Colorizer.Write alwaysOk (colorize 0) 0 ([97] ++ newlineByte :: [98])).c
        (Colorizer.Write alwaysOk (colorize 0) 0 ([97] ++ newlineByte :: [98])).t).ok = true) ∧
    (∀ (c : Colorizer) (sinkOk : Nat → Bool) (t : Nat), c.trailer = [] →
      (Colorizer.Close sinkOk c t).outs = [] ∧ (Colorizer.Close sinkOk c t).ok = true)) :=
  ⟨⟨by decide, by decide, by decide⟩,
    close_flushes_unterminated_line 0 [97] [98] (by decide) (by decide) (by decide)⟩

/-- Invariant holds initially. -/
theorem muInv_init {N : Nat} (msgs : Fin N → List Byte) : MuInv msgs (MuState.init N) := by
  refine ⟨by simp [MuState.init], ?_, ?_, ?_, ?_⟩ <;> simp [MuState.init]

/-- Invariant is preserved by every protocol step. -/
theorem muInv_step {N : Nat} {msgs : Fin N → List Byte} {s s2 : MuState N}
    (hinv : MuInv msgs s) (hstep : MuStep msgs s s2) : MuInv msgs s2 := by
  obtain ⟨hout, hfin, hnodup, hhold, hwrit⟩ := hinv
  cases hstep with
  | lock i s h1 h2 =>
    refine ⟨?_, ?_, ?_, ?_, ?_⟩
    · simp only [Function.update_same]
      simpa [h1] using hout
    · intro j
      by_cases hji : j = i
      · subst hji
        simp only [Function.update_same]
        constructor
        · intro hcon
          exact absurd hcon (by decide)
        · intro hmem
          exact absurd ((hfin j).mpr hmem) (by simp [h2])
      · simpa [Function.update_noteq hji] using hfin j
    · exact hnodup
    · intro j hj
      injection hj with hj
      subst hj
      exact ⟨by simp, by simp⟩
    · intro j hj
      dsimp only at hj ⊢
      by_cases hji : j = i
      · simp [hji]
      · rw [Function.update_noteq hji] at hj
        exact absurd (hwrit j hj) (by simp [h1])
  | emit i s h1 h2 =>
    refine ⟨?_, hfin, hnodup, ?_, hwrit⟩
    · rw [hout]
      simp only [h1, Function.update_same]
      rw [List.append_assoc]
      congr 1
      rw [List.take_succ, List.getElem?_eq_getElem h2]
      rfl
    · intro j hj
      dsimp only at hj ⊢
      rw [h1] at hj
      injection hj with hj
      subst hj
      refine ⟨(hhold i h1).1, ?_⟩
      simp only [Function.update_same]
      omega
  | unlock i s h1 h2 =>
    have hiw : s.phase i = Phase.writing := (hhold i h1).1
    have hinotmem : i ∉ s.order := fun hmem => absurd ((hfin i).mpr hmem) (by simp [hiw])
    refine ⟨?_, ?_, ?_, ?_, ?_⟩
    · dsimp only
      rw [hout]
      simp only [h1, h2, List.take_length, List.map_append, List.flatten_append]
      simp
    · intro j
      dsimp only
      by_cases hji : j = i
      · subst hji
        simp [Function.update_same]
      · rw [Function.update_noteq hji]
        simp only [List.mem_append, List.mem_singleton, hji, or_false]
        exact hfin j
    · dsimp only
      simp [List.nodup_append, hnodup, hinotmem]
    · intro j hj
      dsimp only at hj
      exact absurd hj (by simp)
    · intro j hj
      dsimp only at hj ⊢
      by_cases hji : j = i
      · subst hji
        rw [Function.update_same] at hj
        exact absurd hj (by decide)
      · rw [Function.update_noteq hji] at hj
        have hh := hwrit j hj
        rw [h1] at hh
        injection hh with hh
        exact absurd hh.symm hji

/-- Invariant holds in every reachable state. -/
theorem muInv_reach {N : Nat} {msgs : Fin N → List Byte} {s : MuState N}
    (h : MuReach msgs (MuState.init N) s) : MuInv msgs s := by
  induction h with
  | refl => exact muInv_init msgs
  | tail _ hstep ih => exact muInv_step ih hstep

/-- C8: in the mutex protocol of safeWriter, every execution in which all N
concurrent producers have completed their Write call leaves the shared
destination holding exactly the producers' messages, each whole and
contiguous, concatenated in completion order: no two Write calls ever
interleave their bytes, and each call performed its full underlying write. -/
theorem safeWriter_no_interleaving {N : Nat} (msgs : Fin N → List Byte)
    (s : MuState N) (hreach : MuReach msgs (MuState.init N) s)
    (hdone : ∀ i, s.phase i = Phase.finished) :
    s.order.Nodup ∧ (∀ i, i ∈ s.order) ∧ s.out = (s.order.map msgs).flatten := by
  obtain ⟨hout, hfin, hnodup, hhold, hwrit⟩ := muInv_reach hreach
  have hnone : s.holder = none := by
    cases hh : s.holder with
    | none => rfl
    | some i =>
      have := (hhold i hh).1
      rw [hdone i] at this
      exact absurd this (by decide)
  refine ⟨hnodup, fun i => (hfin i).mp (hdone i), ?_⟩
  rw [hout, hnone]
  simp

/-- Witness for C8: one producer locks, transfers its one-byte message and
unlocks; the theorem applies to the resulting finished state. -/
theorem safeWriter_no_interleaving_witness :
    (MuReach (fun _ : Fin 1 => [42]) (MuState.init 1)
      { holder := none,
        phase := Function.update (Function.update (fun _ : Fin 1 => Phase.idle) 0 Phase.writing) 0 Phase.finished,
        emitted := Function.update (Function.update (fun _ : Fin 1 => 0) 0 0) 0 1,
        out := [42],
        order := [0] } ∧
     (∀ i : Fin 1, Function.update (Function.update (fun _ : Fin 1 => Phase.idle) 0 Phase.writing) 0 Phase.finished i = Phase.finished)) ∧
    (([0] : List (Fin 1)).Nodup ∧ (∀ i : Fin 1, i ∈ ([0] : List (Fin 1))) ∧
      ([42] : List Byte) = ((([0] : List (Fin 1)).map (fun _ => [42])).flatten)) := by
  have hdone : ∀ i : Fin 1,
      Function.update (Function.update (fun _ : Fin 1 => Phase.idle) 0 Phase.writing) 0 Phase.finished i
        = Phase.finished := by
    intro i
    have hi : i = 0 := Fin.fin_one_eq_zero i
    subst hi
    simp [Function.update_same]
  have hstep1 : MuStep (fun _ : Fin 1 => [42]) (MuState.init 1)
      { holder := some 0,
        phase := Function.update (fun _ : Fin 1 => Phase.idle) 0 Phase.writing,
        emitted := Function.update (fun _ : Fin 1 => 0) 0 0,
        out := [], order := [] } :=
    MuStep.lock 0 (MuState.init 1) rfl rfl
  have hstep2 : MuStep (fun _ : Fin 1 => [42])
      { holder := some 0,
        phase := Function.update (fun _ : Fin 1 => Phase.idle) 0 Phase.writing,
        emitted := Function.update (fun _ : Fin 1 => 0) 0 0,
        out := [], order := [] }
      { holder := some 0,
        phase := Function.update (fun _ : Fin 1 => Phase.idle) 0 Phase.writing,
        emitted := Function.update (Function.update (fun _ : Fin 1 => 0) 0 0) 0 1,
        out := [42], order := [] } := by
    have h := @MuStep.emit 1 (fun _ : Fin 1 => [42]) 0
      { holder := some 0,
        phase := Function.update (fun _ : Fin 1 => Phase.idle) 0 Phase.writing,
        emitted := Function.update (fun _ : Fin 1 => 0) 0 0,
        out := [], order := [] } rfl (by simp)
    convert h using 2
  have hstep3 : MuStep (fun _ : Fin 1 => [42])
      { holder := some 0,
        phase := Function.update (fun _ : Fin 1 => Phase.idle) 0 Phase.writing,
        emitted := Function.update (Function.update (fun _ : Fin 1 => 0) 0 0) 0 1,
        out := [42], order := [] }
      { holder := none,
        phase := Function.update (Function.update (fun _ : Fin 1 => Phase.idle) 0 Phase.writing) 0 Phase.finished,
        emitted := Function.update (Function.update (fun _ : Fin 1 => 0) 0 0) 0 1,
        out := [42], order := [0] } :=
    MuStep.unlock 0 _ rfl (by simp [Function.update_same])
  have hreach : MuReach (fun _ : Fin 1 => [42]) (MuState.init 1)
      { holder := none,
        phase := Function.update (Function.update (fun _ : Fin 1 => Phase.idle) 0 Phase.writing) 0 Phase.finished,
        emitted := Function.update (Function.update (fun _ : Fin 1 => 0) 0 0) 0 1,
        out := [42], order := [0] } :=
    Relation.ReflTransGen.tail
      (Relation.ReflTransGen.tail
        (Relation.ReflTransGen.tail Relation.ReflTransGen.refl hstep1) hstep2) hstep3
  exact ⟨⟨hreach, hdone⟩, safeWriter_no_interleaving (fun _ => [42]) _ hreach hdone⟩

end Colorout
